import Mathlib

/-!
Verification development for the `gack` stack manager (`gack/repo.py`).

The source is a Python class `GackRepo` managing a linear stack of git
branches ("patches").  We give a shallow embedding of the stack engine:

* the stack file format (`_update_stack_file` / `_stack`),
* the navigator operations (`pop`, `push_one`, `push_existing_branch`,
  `push_new_branch`, `untrack`),
* the commit-history walker (`_commits_in_reverse`),
* the Differential-Revision resolver (`_get_differential_revision_in_patch`),
* the dependency annotator (`_add_depends_on_if_appropriate`),
* the land operation (`arc_land`).

Machine-level git state is embedded as: a commit graph mapping commit ids to
(message, parent ids), a branch-tip map, the set of existing branches, the
active branch, the in-memory stack cache and the persisted stack file.
External subprocess calls (`arc land`, checkout, rebase, amend, branch
creation/deletion) are recorded in an effect trace; history rewriting done by
`git rebase` itself is not needed by any property below and is recorded as a
trace event only.
-/

/-- The Python 3 whitespace class: exactly the characters for which
`str.isspace()` holds, which is also what `str.strip()` removes and
what the regex class `\s` matches on `str` patterns.  The set (CPython
`Py_UNICODE_ISSPACE`): U+0009–U+000D, U+001C–U+001F, space, U+0085,
U+00A0, U+1680, U+2000–U+200A, U+2028, U+2029, U+202F, U+205F and
U+3000.  Used to model the `line.strip()` in `GackRepo._stack` and the
`\s` classes of `DIFF_REVISION_RE`. -/
def isSpaceChar (c : Char) : Bool :=
  ('\x09' ≤ c && c ≤ '\x0d') || ('\x1c' ≤ c && c ≤ '\x20') ||
  c = '\x85' || c = '\xa0' || c = '\u1680' ||
  ('\u2000' ≤ c && c ≤ '\u200a') ||
  c = '\u2028' || c = '\u2029' || c = '\u202f' || c = '\u205f' || c = '\u3000'

/-- `[0-9]` character class of the source's regexes. -/
def isDigitChar (c : Char) : Bool :=
  '0' ≤ c && c ≤ '9'

/-- `[a-z]` character class of `DIFF_REVISION_RE`. -/
def isLowerChar (c : Char) : Bool :=
  'a' ≤ c && c ≤ 'z'

/-- Python `stack[i]` for the in-range indices the source uses
(out-of-range access raises in Python and is never reached in the
modelled paths; we default to `""`). -/
def nthName : List String → Nat → String
  | [], _ => ""
  | x :: _, 0 => x
  | _ :: l, n + 1 => nthName l n

/-- Python `list.insert(i, x)` (clamps to append when `i ≥ len`). -/
def listInsertAt : List String → Nat → String → List String
  | l, 0, x => x :: l
  | [], _ + 1, x => [x]
  | y :: l, n + 1, x => y :: listInsertAt l n x

/-- Python `list.pop(i)` for in-range `i`, returning the remaining list. -/
def listRemoveAt : List String → Nat → List String
  | [], _ => []
  | _ :: l, 0 => l
  | y :: l, n + 1 => y :: listRemoveAt l n

/-- `GackRepo._find_patch_index`: first index of `name` in the stack,
`-1` when absent (the source loops over `range(len(stack))` and returns
the first hit; this structural recursion computes the same value). -/
def findPatchIndex : List String → String → Int
  | [], _ => -1
  | p :: rest, name =>
    if p = name then 0
    else
      let r := findPatchIndex rest name
      if r < 0 then -1 else r + 1

/-- Does `lit` occur at the head of `s`? (literal part of a regex match) -/
def startsWithLit : List Char → List Char → Bool
  | [], _ => true
  | _ :: _, [] => false
  | a :: as, b :: bs => a = b && startsWithLit as bs

/-! ### The stack file (`_update_stack_file` / `_stack`) -/

/-- `GackRepo._update_stack_file`: the file contents produced by writing
`'{}\n'.format(patch)` for each stack entry in order. -/
def stackString : List String → List Char
  | [] => []
  | n :: ns => n.data ++ '\n' :: stackString ns

/-- The `f.readline()` loop of `GackRepo._stack`: split the file into
lines, each including its terminating newline; a final unterminated
chunk is returned as well; an empty read ends the loop.  `acc` holds the
current line read so far, in reverse. -/
def readLinesAux : List Char → List Char → List (List Char)
  | [], acc => if acc = [] then [] else [acc.reverse]
  | c :: rest, acc =>
    if c = '\n' then (acc.reverse ++ ['\n']) :: readLinesAux rest []
    else readLinesAux rest (c :: acc)

def readLines (content : List Char) : List (List Char) :=
  readLinesAux content []

/-- Python `str.strip()`: drop leading and trailing whitespace. -/
def pyStrip (l : List Char) : List Char :=
  ((l.dropWhile isSpaceChar).reverse.dropWhile isSpaceChar).reverse

/-- `GackRepo._stack`: parse the stack file, one `line.strip()` per line. -/
def loadStack (content : List Char) : List String :=
  (readLines content).map (fun l => String.mk (pyStrip l))

/-! ### The `Depends on D<digits>` marker (`re.search(r'Depends on D[0-9]+', m)`) -/

/-- The literal prelude of the dependency marker regex. -/
def depLitChars : List Char :=
  ['D', 'e', 'p', 'e', 'n', 'd', 's', ' ', 'o', 'n', ' ', 'D']

/-- Does `r'Depends on D[0-9]+'` match at the head of `s`? -/
def depMarkerAt (s : List Char) : Bool :=
  startsWithLit depLitChars s &&
    (match s.drop 12 with
     | c :: _ => isDigitChar c
     | [] => false)

/-- `re.search(r'Depends on D[0-9]+', s) is not None`. -/
def containsDepMarker : List Char → Bool
  | [] => false
  | c :: rest => depMarkerAt (c :: rest) || containsDepMarker rest

/-! ### `DIFF_REVISION_RE = r'Differential Revision:\s+([a-z]+://[^\s]+/(D[0-9]+))'`

`re.search` returns the match at the leftmost feasible start position;
within a match, `\s+`, `[a-z]+` and `[0-9]+` are greedy (and deterministic
here, because the character following each class cannot belong to it) and
the greedy `[^\s]+` backtracks, so `/D<digits>` is taken at the last
feasible position of the non-whitespace token.  The source only ever uses
`group(2)`, the `D[0-9]+` part, which is what the model returns. -/

def diffRevLit : List Char :=
  "Differential Revision:".data

/-- Match `/D[0-9]+` at the head of `s`; on success return group 2,
`'D'` followed by the (greedy) digit run. -/
def slashDAt : List Char → Option (List Char)
  | a :: b :: c :: rest =>
    if a = '/' then
      if b = 'D' then
        if isDigitChar c then some ('D' :: c :: rest.takeWhile isDigitChar) else none
      else none
    else none
  | _ => none

/-- Last position of `tok` where `/D[0-9]+` matches (the greedy `[^\s]+`
backtracks from the longest consumption, so later positions win). -/
def lastSlashD : List Char → Option (List Char)
  | [] => none
  | c :: rest =>
    match lastSlashD rest with
    | some r => some r
    | none => slashDAt (c :: rest)

/-- Attempt to match `DIFF_REVISION_RE` with the match starting exactly at
the head of `s`; returns group 2 on success. -/
def matchDiffRevAt (s : List Char) : Option (List Char) :=
  if startsWithLit diffRevLit s then
    let s1 := s.drop diffRevLit.length
    if (s1.takeWhile isSpaceChar).isEmpty then none
    else
      let s2 := s1.dropWhile isSpaceChar
      if (s2.takeWhile isLowerChar).isEmpty then none
      else
        match s2.dropWhile isLowerChar with
        | ':' :: '/' :: '/' :: s4 =>
          (match s4.takeWhile (fun c => !isSpaceChar c) with
           | [] => none
           | _ :: restTok => lastSlashD restTok)
        | _ => none
  else none

/-- `re.search(GackRepo.DIFF_REVISION_RE, s)` returning `group(2)`:
scan start positions left to right, first successful position wins. -/
def searchDiffRev : List Char → Option (List Char)
  | [] => none
  | c :: rest =>
    match matchDiffRevAt (c :: rest) with
    | some r => some r
    | none => searchDiffRev rest

/-! ### Commits and the history walker -/

/-- A git commit as the walker sees it: message text and parent ids
(first parent is the traversal parent).  Commit identity (`name_rev`
comparison in the source) is id equality. -/
structure CommitData where
  message : List Char
  parents : List Nat
deriving DecidableEq

/-- The repository's commit store. -/
def CommitGraph := Nat → CommitData

/-- `MAX_COMMITS = 15` (gack/repo.py line 15). -/
def MAX_COMMITS : Nat := 15

/-- The `while` loop of `GackRepo._commits_in_reverse`, with the
up-counting `commits_yielded` counter replaced by the remaining budget
`budget = MAX_COMMITS + 1 - commits_yielded` so that the recursion is
structural.  One iteration: stop (yield nothing) when the current commit
is the root or the boundary commit; otherwise yield it, and stop when
the incremented counter exceeds `MAX_COMMITS` (i.e. the budget after
this yield is zero) or the commit has no parents; otherwise continue at
the first parent.  The top-level call uses `budget = MAX_COMMITS + 1`,
so the `0` case is never reached. -/
def walkAux (g : CommitGraph) (rootId parentId : Nat) : Nat → Nat → List Nat
  | 0, _ => []
  | b + 1, cur =>
    if cur = rootId ∨ cur = parentId then []
    else if b = 0 ∨ (g cur).parents = [] then [cur]
    else cur :: walkAux g rootId parentId b ((g cur).parents.headD 0)

/-! ### Repository state and operation results -/

/-- The observable state of a gack working copy. -/
structure GackState where
  /-- commit id ↦ commit data (`repo.commit`). -/
  graph : CommitGraph
  /-- branch name ↦ tip commit id. -/
  tip : String → Nat
  /-- the branches that exist (`repo.branches`). -/
  branches : List String
  /-- `repo.active_branch` (`GackRepo.current_patch`). -/
  active : String
  /-- the in-memory stack cache (`GackRepo._stack`). -/
  stack : List String
  /-- the persisted stack file, `none` when absent. -/
  stackFile : Option (List Char)
  /-- fresh commit id supply for `git commit --amend`. -/
  nextId : Nat

/-- How an operation finished: normal return (printed precondition
messages included), an uncaught Python exception, or `sys.exit(code)`
from `_shell_out`. -/
inductive Outcome where
  | ok
  | raised
  | exited (code : Int)
deriving DecidableEq

/-- Externally visible actions performed by an operation, in order. -/
inductive Effect where
  | checkoutE (branch : String)
  | rebaseE (onto : String)
  | shellE (cmd : List String)
  | amendE (msg : List Char)
  | stackWriteE (names : List String)
  | createBranchE (name : String)
  | deleteBranchE (name : String)
deriving DecidableEq

abbrev OpResult := Outcome × GackState × List Effect

-- Equality of walker results (`Except Unit (List Nat)`) is decidable,
-- so concrete walks can be checked by evaluation.
deriving instance DecidableEq for Except

/-- `GackRepo._find_current_patch_index`. -/
def currentPatchIndex (s : GackState) : Int :=
  findPatchIndex s.stack s.active

/-- `repo.commit(rev=r)`: `rev=None` resolves `HEAD` (the active branch's
tip); a branch name resolves to its tip, raising (`.error`) when no such
branch exists. -/
def resolveRev (s : GackState) : Option String → Except Unit Nat
  | none => .ok (s.tip s.active)
  | some name => if name ∈ s.branches then .ok (s.tip name) else .error ()

/-- `self._repo.commit(rev=self._stack[0])` inside the walker
(raises when the stack is empty or the root branch is gone). -/
def resolveRoot (s : GackState) : Except Unit Nat :=
  match s.stack with
  | [] => .error ()
  | r0 :: _ => resolveRev s (some r0)

/-- `GackRepo._commits_in_reverse(current_patch, parent_patch)`, fully
forced (every caller drains the generator): resolve the current, boundary
and root commits in the source's order, then run the bounded first-parent
walk. -/
def commitsInReverse (s : GackState) (curPatch : String) (parentPatch : Option String) :
    Except Unit (List Nat) :=
  match resolveRev s (some curPatch), resolveRev s parentPatch, resolveRoot s with
  | .ok c, .ok p, .ok r => .ok (walkAux s.graph r p (MAX_COMMITS + 1) c)
  | _, _, _ => .error ()

/-- `GackRepo._get_differential_revision_in_patch`. -/
def getDiffRevInPatch (s : GackState) (patchIndex : Nat) : Except Unit (Option (List Char)) :=
  let prevPatch : Option String :=
    if 0 < patchIndex then some (nthName s.stack (patchIndex - 1)) else none
  match commitsInReverse s (nthName s.stack patchIndex) prevPatch with
  | .error _ => .error ()
  | .ok cids => .ok (cids.findSome? fun cid => searchDiffRev (s.graph cid).message)

/-- `GackRepo._check_out`: `_find_branch` returns `None` for an unknown
name, and `None.checkout()` raises. -/
def checkOut (s : GackState) (b : String) : OpResult :=
  if b ∈ s.branches then (.ok, { s with active := b }, [.checkoutE b])
  else (.raised, s, [])

/-- `GackRepo._update_stack_file`: raises when the stack file is absent,
otherwise rewrites it from the in-memory stack. -/
def updateStackFile (s : GackState) : OpResult :=
  match s.stackFile with
  | none => (.raised, s, [])
  | some _ => (.ok, { s with stackFile := some (stackString s.stack) }, [.stackWriteE s.stack])

/-- `repo.delete_head(branch, force=True)`. -/
def deleteHead (s : GackState) (b : String) : OpResult :=
  if b ∈ s.branches then (.ok, { s with branches := s.branches.erase b }, [.deleteBranchE b])
  else (.raised, s, [])

/-- `GackRepo.pop`. -/
def pop (s : GackState) (all : Bool) : OpResult :=
  let ci := currentPatchIndex s
  if ci < 0 then (.ok, s, [])
  else if ci = 0 then (.ok, s, [])
  else if all then checkOut s (nthName s.stack 0)
  else checkOut s (nthName s.stack (ci.toNat - 1))

/-- `GackRepo.push_one`. -/
def pushOne (s : GackState) (rebase : Bool) : OpResult :=
  let ci := currentPatchIndex s
  if ci < 0 then (.ok, s, [])
  else if ci = (s.stack.length : Int) - 1 then (.ok, s, [])
  else
    let basePatch := s.active
    match checkOut s (nthName s.stack (ci.toNat + 1)) with
    | (.ok, s1, tr) =>
      if rebase then (.ok, s1, tr ++ [.rebaseE basePatch]) else (.ok, s1, tr)
    | r => r

/-- `GackRepo.push_existing_branch`. -/
def pushExistingBranch (s : GackState) (branchName : String) (rebase : Bool) : OpResult :=
  let ci := currentPatchIndex s
  let ni := findPatchIndex s.stack branchName
  if ci < 0 then (.ok, s, [])
  else if 0 ≤ ni then (.ok, s, [])
  else
    let basePatch := s.active
    let s1 := { s with stack := listInsertAt s.stack (ci.toNat + 1) branchName }
    match updateStackFile s1 with
    | (.ok, s2, tr) =>
      (match checkOut s2 branchName with
       | (.ok, s3, tr2) =>
         if rebase then (.ok, s3, tr ++ tr2 ++ [.rebaseE basePatch])
         else (.ok, s3, tr ++ tr2)
       | (o, s3, tr2) => (o, s3, tr ++ tr2))
    | (o, s2, tr) => (o, s2, tr)

/-- `GackRepo.push_new_branch`.  Note: the source computes
`next_patch_index` but never tests it; `create_head` raises when the
branch already exists in git, but nothing guards against a stack entry
with no underlying branch. -/
def pushNewBranch (s : GackState) (branchName : String) : OpResult :=
  let ci := currentPatchIndex s
  let _ni := findPatchIndex s.stack branchName
  if ci < 0 then (.ok, s, [])
  else if branchName ∈ s.branches then (.raised, s, [])
  else
    let s1 := { s with
      branches := branchName :: s.branches,
      tip := fun b => if b = branchName then s.tip s.active else s.tip b }
    let s2 := { s1 with stack := listInsertAt s1.stack (ci.toNat + 1) branchName }
    match updateStackFile s2 with
    | (.ok, s3, tr) =>
      (match checkOut s3 branchName with
       | (o, s4, tr2) => (o, s4, .createBranchE branchName :: (tr ++ tr2)))
    | (o, s3, tr) => (o, s3, .createBranchE branchName :: tr)

/-- `GackRepo.untrack`. -/
def untrack (s : GackState) (branch : String) (delete : Bool) : OpResult :=
  let pi := findPatchIndex s.stack branch
  let ci := currentPatchIndex s
  if pi < 0 then (.ok, s, [])
  else if ci > pi then (.ok, s, [])
  else
    let s1 := { s with stack := listRemoveAt s.stack pi.toNat }
    match updateStackFile s1 with
    | (.ok, s2, tr) =>
      if delete then
        (match deleteHead s2 branch with
         | (o, s3, tr2) => (o, s3, tr ++ tr2))
      else (.ok, s2, tr)
    | (o, s2, tr) => (o, s2, tr)

/-- `GackRepo.arc_land`.  `landExit` is the exit status of the external
`arc land` call; `_shell_out` turns a non-zero status into
`sys.exit(status)`, which aborts the operation before any stack edit. -/
def arcLand (s : GackState) (landExit : Int) : OpResult :=
  let ci := currentPatchIndex s
  if ci < 0 then (.ok, s, [])
  else if ci ≠ 1 then (.ok, s, [])
  else
    if landExit = 0 then
      let s1 := { s with stack := listRemoveAt s.stack ci.toNat }
      match updateStackFile s1 with
      | (o, s2, tr) => (o, s2, .shellE ["arc", "land"] :: tr)
    else (.exited landExit, s, [.shellE ["arc", "land"]])

/-- `self._repo.git.commit('--amend', '-m', newMsg)`: replace the commit
at `HEAD` (the active branch's tip) by a fresh commit with the same
parents and the given message, moving the active branch's tip to it. -/
def amendTip (s : GackState) (newMsg : List Char) : GackState :=
  { s with
    graph := fun c => if c = s.nextId then ⟨newMsg, (s.graph (s.tip s.active)).parents⟩
      else s.graph c,
    tip := fun b => if b = s.active then s.nextId else s.tip b,
    nextId := s.nextId + 1 }

/-- `GackRepo._add_depends_on_if_appropriate`: no-op below index 1 or
when the predecessor has no resolvable Differential Revision or when a
`Depends on D<digits>` marker is already present in the current patch's
range; otherwise amend the tip commit (`git commit --amend -m`), which
creates a fresh commit with the same parents and moves the active
branch's tip to it. -/
def addDependsOn (s : GackState) : OpResult :=
  let ci := currentPatchIndex s
  if ci < 1 then (.ok, s, [])
  else
    match getDiffRevInPatch s (ci.toNat - 1) with
    | .error _ => (.raised, s, [])
    | .ok none => (.ok, s, [])
    | .ok (some parentDiff) =>
      match commitsInReverse s (nthName s.stack ci.toNat)
          (some (nthName s.stack (ci.toNat - 1))) with
      | .error _ => (.raised, s, [])
      | .ok cids =>
        if cids.any (fun cid => containsDepMarker (s.graph cid).message) then (.ok, s, [])
        else
          match resolveRev s (some (nthName s.stack ci.toNat)) with
          | .error _ => (.raised, s, [])
          | .ok tipId =>
            let newMsg := (s.graph tipId).message ++
              '\n' :: '\n' :: ("Depends on ".data ++ parentDiff)
            (.ok, amendTip s newMsg, [.amendE newMsg])

/-- Branch tips are below the fresh-id supply (true of any state whose
commit ids were allocated by the model's own counter). -/
abbrev wfState (s : GackState) : Prop :=
  ∀ b ∈ s.branches, s.tip b < s.nextId

/-! ### Concrete states used by witnesses and counterexamples -/

/-- A four-patch stack `[root, A, B, C]`, one commit per patch
(`0 ← 1 ← 2 ← 3`), active branch `A` (index 1), stack file present. -/
def landState : GackState where
  graph := fun n =>
    if n = 1 then ⟨"commit A".data, [0]⟩
    else if n = 2 then ⟨"commit B".data, [1]⟩
    else if n = 3 then ⟨"commit C".data, [2]⟩
    else ⟨"commit root".data, []⟩
  tip := fun b => if b = "A" then 1 else if b = "B" then 2 else if b = "C" then 3 else 0
  branches := ["root", "A", "B", "C"]
  active := "A"
  stack := ["root", "A", "B", "C"]
  stackFile := some (stackString ["root", "A", "B", "C"])
  nextId := 4

/-- A repository whose commit history is a long first-parent chain
`0 ← 1 ← 2 ← ⋯` that never reaches the boundary or root commit `100`
(the "missed rebase" divergence scenario): patch `X` has tip `0`,
its nominal boundary `B` and the root both resolve to commit `100`. -/
def longChainState : GackState where
  graph := fun n => ⟨[], [n + 1]⟩
  tip := fun b => if b = "X" then 0 else 100
  branches := ["root", "X", "B"]
  active := "X"
  stack := ["root", "X"]
  stackFile := some (stackString ["root", "X"])
  nextId := 101

/-- A freshly initialized repository: stack file `main`, one branch. -/
def initState : GackState where
  graph := fun _ => ⟨"initial".data, []⟩
  tip := fun _ => 0
  branches := ["main"]
  active := "main"
  stack := ["main"]
  stackFile := some (stackString ["main"])
  nextId := 1

/-- Stack `[main, A, B]` with one commit per patch, active `B`. -/
def threeStackState : GackState where
  graph := fun n =>
    if n = 1 then ⟨"commit A".data, [0]⟩
    else if n = 2 then ⟨"commit B".data, [1]⟩
    else ⟨"commit main".data, []⟩
  tip := fun b => if b = "A" then 1 else if b = "B" then 2 else 0
  branches := ["main", "A", "B"]
  active := "B"
  stack := ["main", "A", "B"]
  stackFile := some (stackString ["main", "A", "B"])
  nextId := 3

/-- The spec's pop scenario: stack file `main\nfeatureA\nfeatureB`,
active branch `featureB`. -/
def popScenarioState : GackState where
  graph := fun n =>
    if n = 1 then ⟨"commit featureA".data, [0]⟩
    else if n = 2 then ⟨"commit featureB".data, [1]⟩
    else ⟨"commit main".data, []⟩
  tip := fun b => if b = "featureA" then 1 else if b = "featureB" then 2 else 0
  branches := ["main", "featureA", "featureB"]
  active := "featureB"
  stack := ["main", "featureA", "featureB"]
  stackFile := some (stackString ["main", "featureA", "featureB"])
  nextId := 3

/-- Stack `[root, A, B]`, active `B` (index 2); patch `A`'s sole commit
carries a Differential Revision footer, patch `B`'s does not yet record
a dependency.  This is the state in which `arc_diff` calls the
dependency annotator. -/
def annotateState : GackState where
  graph := fun n =>
    if n = 1 then ⟨"commit A\n\nDifferential Revision: http://phab/D12".data, [0]⟩
    else if n = 2 then ⟨"commit B".data, [1]⟩
    else ⟨"commit root".data, []⟩
  tip := fun b => if b = "A" then 1 else if b = "B" then 2 else 0
  branches := ["root", "A", "B"]
  active := "B"
  stack := ["root", "A", "B"]
  stackFile := some (stackString ["root", "A", "B"])
  nextId := 3

/-- A state whose stack tracks a name (`A`) with no underlying git
branch.  Reachable from `initState` by `push_existing_branch("A")`:
the name is persisted into the stack before the checkout raises. -/
def ghostEntryState : GackState :=
  (pushExistingBranch initState "A" false).2.1

/-! ### Basic lemmas about the list helpers -/

theorem nthName_lt_length {l : List String} {k : Nat} (h : k < l.length) :
    nthName l k ∈ l := by
  induction l generalizing k with
  | nil => simp at h
  | cons p rest ih =>
    cases k with
    | zero => simp [nthName]
    | succ j =>
      simp only [nthName]
      exact List.mem_cons_of_mem _ (ih (by simpa using h))

theorem findPatchIndex_neg {l : List String} {name : String}
    (h : findPatchIndex l name < 0) : name ∉ l := by
  induction l with
  | nil => simp
  | cons p rest ih =>
    simp only [findPatchIndex] at h
    by_cases hp : p = name
    · simp [hp] at h
    · simp only [if_neg hp] at h
      intro hmem
      rcases List.mem_cons.mp hmem with hh | ht
      · exact hp hh.symm
      · split at h
        · exact ih (by assumption) ht
        · omega

theorem findPatchIndex_spec {l : List String} {name : String}
    (h : 0 ≤ findPatchIndex l name) :
    nthName l (findPatchIndex l name).toNat = name ∧
      (findPatchIndex l name).toNat < l.length ∧
      ∀ j < (findPatchIndex l name).toNat, nthName l j ≠ name := by
  induction l with
  | nil => simp [findPatchIndex] at h
  | cons p rest ih =>
    by_cases hp : p = name
    · refine ⟨?_, ?_, ?_⟩ <;> simp [findPatchIndex, hp, nthName]
    · simp only [findPatchIndex, if_neg hp] at h ⊢
      have hr : 0 ≤ findPatchIndex rest name := by
        by_contra hneg
        push_neg at hneg
        simp [if_pos hneg] at h
      rcases ih hr with ⟨h1, h2, h3⟩
      have hif : ¬ findPatchIndex rest name < 0 := by omega
      rw [if_neg hif]
      have htoNat : (findPatchIndex rest name + 1).toNat
          = (findPatchIndex rest name).toNat + 1 := by omega
      refine ⟨?_, ?_, ?_⟩
      · rw [htoNat]; simpa [nthName] using h1
      · rw [htoNat]; simpa using h2
      · rw [htoNat]
        intro j hj
        cases j with
        | zero => simpa [nthName] using hp
        | succ j' => simpa [nthName] using h3 j' (by omega)

theorem findPatchIndex_insertAt {l : List String} {name : String} {k : Nat}
    (hmem : name ∉ l) (hk : k ≤ l.length) :
    findPatchIndex (listInsertAt l k name) name = (k : Int) := by
  induction l generalizing k with
  | nil =>
    have : k = 0 := by simpa using hk
    subst this
    simp [listInsertAt, findPatchIndex]
  | cons p rest ih =>
    cases k with
    | zero => simp [listInsertAt, findPatchIndex]
    | succ j =>
      have hp : p ≠ name := fun h => hmem (h ▸ List.mem_cons_self p rest)
      have hrest : name ∉ rest := fun h => hmem (List.mem_cons_of_mem _ h)
      have hj : j ≤ rest.length := by simpa using hk
      simp only [listInsertAt, findPatchIndex, if_neg hp, ih hrest hj]
      have : ¬ (j : Int) < 0 := by omega
      rw [if_neg this]
      push_cast
      ring

theorem nthName_insertAt_lt {l : List String} {x : String} {k j : Nat}
    (hjk : j < k) (hk : k ≤ l.length) :
    nthName (listInsertAt l k x) j = nthName l j := by
  induction l generalizing k j with
  | nil =>
    cases k with
    | zero => omega
    | succ k' => simp at hk
  | cons p rest ih =>
    cases k with
    | zero => omega
    | succ k' =>
      cases j with
      | zero => simp [listInsertAt, nthName]
      | succ j' =>
        simpa [listInsertAt, nthName] using ih (by omega) (by simpa using hk)

/-! ### Lemmas about the walker -/

theorem walkAux_length (g : CommitGraph) (r p : Nat) :
    ∀ (b cur : Nat), (walkAux g r p b cur).length ≤ b := by
  intro b
  induction b with
  | zero => intro cur; simp [walkAux]
  | succ b ih =>
    intro cur
    simp only [walkAux]
    split
    · simp
    · split
      · simp
      · simpa using ih _

theorem walkAux_not_mem_root (g : CommitGraph) (r p : Nat) :
    ∀ (b cur : Nat), r ∉ walkAux g r p b cur := by
  intro b
  induction b with
  | zero => intro cur; simp [walkAux]
  | succ b ih =>
    intro cur
    simp only [walkAux]
    split
    · simp
    · next hne =>
      push_neg at hne
      split
      · simpa using fun h => hne.1 h.symm
      · simp only [List.mem_cons]
        rintro (h | h)
        · exact hne.1 h.symm
        · exact ih _ h

theorem walkAux_not_mem_parent (g : CommitGraph) (r p : Nat) :
    ∀ (b cur : Nat), p ∉ walkAux g r p b cur := by
  intro b
  induction b with
  | zero => intro cur; simp [walkAux]
  | succ b ih =>
    intro cur
    simp only [walkAux]
    split
    · simp
    · next hne =>
      push_neg at hne
      split
      · simpa using fun h => hne.2 h.symm
      · simp only [List.mem_cons]
        rintro (h | h)
        · exact hne.2 h.symm
        · exact ih _ h

theorem walkAux_cons (g : CommitGraph) (r p b cur : Nat)
    (hr : cur ≠ r) (hp : cur ≠ p) :
    ∃ t, walkAux g r p (b + 1) cur = cur :: t := by
  simp only [walkAux]
  rw [if_neg (by tauto)]
  split
  · exact ⟨[], rfl⟩
  · exact ⟨_, rfl⟩

/-! ### Shape of the extracted Differential Revision identifier -/

theorem slashDAt_shape {s d : List Char} (h : slashDAt s = some d) :
    ∃ c ds, d = 'D' :: c :: ds ∧ isDigitChar c = true := by
  rcases s with _ | ⟨a, _ | ⟨b, _ | ⟨c, rest⟩⟩⟩
  · simp [slashDAt] at h
  · simp [slashDAt] at h
  · simp [slashDAt] at h
  · simp only [slashDAt] at h
    split at h
    · split at h
      · split at h
        · exact ⟨c, _, by simpa using h.symm, by assumption⟩
        · simp at h
      · simp at h
    · simp at h

theorem lastSlashD_shape {s d : List Char} (h : lastSlashD s = some d) :
    ∃ c ds, d = 'D' :: c :: ds ∧ isDigitChar c = true := by
  induction s with
  | nil => simp [lastSlashD] at h
  | cons c rest ih =>
    simp only [lastSlashD] at h
    split at h
    · exact ih (by simp_all)
    · exact slashDAt_shape h

theorem matchDiffRevAt_shape {s d : List Char} (h : matchDiffRevAt s = some d) :
    ∃ c ds, d = 'D' :: c :: ds ∧ isDigitChar c = true := by
  simp only [matchDiffRevAt] at h
  split at h
  · split at h
    · simp at h
    · split at h
      · simp at h
      · split at h
        · split at h
          · simp at h
          · exact lastSlashD_shape h
        · simp at h
  · simp at h

theorem searchDiffRev_shape {s d : List Char} (h : searchDiffRev s = some d) :
    ∃ c ds, d = 'D' :: c :: ds ∧ isDigitChar c = true := by
  induction s with
  | nil => simp [searchDiffRev] at h
  | cons c rest ih =>
    simp only [searchDiffRev] at h
    split at h
    · next r heq =>
      obtain rfl : r = d := by injection h
      exact matchDiffRevAt_shape heq
    · exact ih h

/-! ### The `Depends on` marker is found in an amended message -/

theorem startsWithLit_self_append (lit rest : List Char) :
    startsWithLit lit (lit ++ rest) = true := by
  induction lit with
  | nil => simp [startsWithLit]
  | cons a as ih => simp [startsWithLit, ih]

theorem depMarkerAt_append {c : Char} (post : List Char)
    (hc : isDigitChar c = true) :
    depMarkerAt (depLitChars ++ c :: post) = true := by
  simp only [depMarkerAt, startsWithLit_self_append, Bool.true_and]
  have hlen : depLitChars.length = 12 := by decide
  rw [show (12 : Nat) = depLitChars.length from hlen.symm, List.drop_left]
  exact hc

theorem containsDepMarker_append {pre post : List Char} {c : Char}
    (hc : isDigitChar c = true) :
    containsDepMarker (pre ++ (depLitChars ++ c :: post)) = true := by
  induction pre with
  | nil =>
    simp only [List.nil_append]
    have h2 : depMarkerAt (depLitChars ++ c :: post) = true := depMarkerAt_append post hc
    rcases hdep : depLitChars ++ c :: post with _ | ⟨x, xs⟩
    · simp [depLitChars] at hdep
    · rw [hdep] at h2
      rw [containsDepMarker, h2]
      simp
  | cons a pre ih =>
    rw [List.cons_append, containsDepMarker]
    simp [ih]

/-! ### Stack-file round trip lemmas -/

theorem dropWhile_of_all_false {p : Char → Bool} {l : List Char}
    (h : ∀ c ∈ l, p c = false) : l.dropWhile p = l := by
  cases l with
  | nil => rfl
  | cons a l =>
    rw [List.dropWhile_cons]
    simp [h a (List.mem_cons_self a l)]

theorem readLinesAux_line {nd : List Char} (rest acc : List Char)
    (hnl : ∀ c ∈ nd, c ≠ '\n') :
    readLinesAux (nd ++ '\n' :: rest) acc
      = (acc.reverse ++ nd ++ ['\n']) :: readLinesAux rest [] := by
  induction nd generalizing acc with
  | nil => simp [readLinesAux]
  | cons c nd ih =>
    have hc : c ≠ '\n' := hnl c (List.mem_cons_self c nd)
    rw [List.cons_append, readLinesAux, if_neg hc,
      ih (c :: acc) (fun x hx => hnl x (List.mem_cons_of_mem _ hx))]
    simp

theorem pyStrip_line {nd : List Char} (h : ∀ c ∈ nd, isSpaceChar c = false) :
    pyStrip (nd ++ ['\n']) = nd := by
  cases nd with
  | nil => decide
  | cons c nd' =>
    have hc : isSpaceChar c = false := h c (List.mem_cons_self c nd')
    have hnd' : ∀ x ∈ nd', isSpaceChar x = false :=
      fun x hx => h x (List.mem_cons_of_mem _ hx)
    have hall : ∀ x ∈ nd'.reverse ++ [c], isSpaceChar x = false := by
      intro x hx
      rcases List.mem_append.mp hx with hx' | hx'
      · exact hnd' x (List.mem_reverse.mp hx')
      · simp only [List.mem_singleton] at hx'
        subst hx'
        exact hc
    rw [pyStrip, List.cons_append, List.dropWhile_cons, hc]
    simp only [Bool.false_eq_true, if_false]
    rw [show (c :: (nd' ++ ['\n'])).reverse = '\n' :: (nd'.reverse ++ [c]) by simp]
    rw [List.dropWhile_cons]
    simp only [show isSpaceChar '\n' = true from rfl, if_true]
    rw [dropWhile_of_all_false hall]
    simp

/-- C7 counterexample: the round trip does not hold for every sequence
of patch names.  The name `a` followed by U+00A0 (no-break space) is a
legal git branch name — git forbids only ASCII space and control bytes
in ref names, and U+00A0 encodes as the legal bytes `0xC2 0xA0` — but
Python's `line.strip()` removes U+00A0, so saving the one-element stack
`["a" ++ U+00A0]` and loading it back yields `[a]`. -/
theorem c7_roundtrip_counterexample :
    loadStack (stackString ["a\u00A0"]) = ["a"] ∧
    loadStack (stackString ["a\u00A0"]) ≠ ["a\u00A0"] := by decide

/-- C7 (amended): stack persistence round-trips — saving a sequence of
patch names to the stack file (`_update_stack_file`, one `'{}\n'`
record per name) and loading it back (`_stack`, one `line.strip()` per
line) yields the same ordered sequence — for every sequence of names
free of Python-whitespace characters.  This covers every ASCII git
branch name (git forbids ASCII whitespace in ref names); names
containing exotic Unicode whitespace such as U+00A0 are excluded, and
indeed do not round-trip (see the counterexample). -/
theorem c7_stack_roundtrip (names : List String)
    (h : ∀ n ∈ names, ∀ c ∈ n.data, isSpaceChar c = false) :
    loadStack (stackString names) = names := by
  induction names with
  | nil => rfl
  | cons n ns ih =>
    have hn : ∀ c ∈ n.data, isSpaceChar c = false := h n (List.mem_cons_self n ns)
    have hnl : ∀ c ∈ n.data, c ≠ '\n' := by
      intro c hc heq
      have hsp := hn c hc
      rw [heq] at hsp
      exact absurd hsp (by decide)
    rw [stackString, loadStack, readLines, readLinesAux_line (stackString ns) [] hnl]
    simp only [List.map_cons, List.reverse_nil, List.nil_append]
    rw [pyStrip_line hn]
    have hmk : String.mk n.data = n := by rcases n with ⟨d⟩; rfl
    rw [hmk]
    have hns := ih (fun m hm => h m (List.mem_cons_of_mem _ hm))
    rw [loadStack, readLines] at hns
    rw [hns]

/-- Witness for C7 at the spec's example stack. -/
theorem c7_stack_roundtrip_witness :
    loadStack (stackString ["main", "featureA", "featureB"])
      = ["main", "featureA", "featureB"] :=
  c7_stack_roundtrip ["main", "featureA", "featureB"] (by decide)

/-! ### Inversion and transfer lemmas for commit resolution -/

theorem resolveRev_some_ok_mem {s : GackState} {name : String} {v : Nat}
    (h : resolveRev s (some name) = .ok v) :
    name ∈ s.branches ∧ v = s.tip name := by
  simp only [resolveRev] at h
  split at h
  · exact ⟨by assumption, by injection h with h'; exact h'.symm⟩
  · simp at h

theorem resolveRoot_ok_elim {s : GackState} {v : Nat}
    (h : resolveRoot s = .ok v) :
    ∃ r0 t, s.stack = r0 :: t ∧ r0 ∈ s.branches ∧ v = s.tip r0 := by
  unfold resolveRoot at h
  split at h
  · simp at h
  · next r0 t heq =>
    obtain ⟨hmem, hv⟩ := resolveRev_some_ok_mem h
    exact ⟨r0, t, heq, hmem, hv⟩

theorem commitsInReverse_ok_elim {s : GackState} {cur : String} {par : Option String}
    {l : List Nat} (h : commitsInReverse s cur par = .ok l) :
    ∃ cId pId rId, resolveRev s (some cur) = .ok cId ∧ resolveRev s par = .ok pId ∧
      resolveRoot s = .ok rId ∧ l = walkAux s.graph rId pId (MAX_COMMITS + 1) cId := by
  unfold commitsInReverse at h
  split at h
  · next c p r heq1 heq2 heq3 =>
    exact ⟨c, p, r, heq1, heq2, heq3, by injection h with h'; exact h'.symm⟩
  · simp at h

theorem commitsInReverse_ok_transfer {s s' : GackState} {cur : String}
    {par : Option String} {l : List Nat}
    (hbr : s'.branches = s.branches) (hst : s'.stack = s.stack)
    (h : commitsInReverse s cur par = .ok l) :
    ∃ l', commitsInReverse s' cur par = .ok l' := by
  obtain ⟨c, p, r, h1, h2, h3, -⟩ := commitsInReverse_ok_elim h
  obtain ⟨hcmem, -⟩ := resolveRev_some_ok_mem h1
  have h1' : resolveRev s' (some cur) = .ok (s'.tip cur) := by
    simp only [resolveRev]
    rw [hbr, if_pos hcmem]
  have h2' : ∃ p', resolveRev s' par = .ok p' := by
    cases par with
    | none => exact ⟨_, rfl⟩
    | some n =>
      obtain ⟨hn, -⟩ := resolveRev_some_ok_mem h2
      refine ⟨s'.tip n, ?_⟩
      simp only [resolveRev]
      rw [hbr, if_pos hn]
  obtain ⟨p', hp'⟩ := h2'
  obtain ⟨r0, t, heq, hmem, -⟩ := resolveRoot_ok_elim h3
  have h3' : resolveRoot s' = .ok (s'.tip r0) := by
    unfold resolveRoot
    rw [hst, heq]
    show resolveRev s' (some r0) = _
    simp only [resolveRev]
    rw [hbr, if_pos hmem]
  refine ⟨walkAux s'.graph (s'.tip r0) p' (MAX_COMMITS + 1) (s'.tip cur), ?_⟩
  unfold commitsInReverse
  rw [h1', hp', h3']

theorem getDiffRevInPatch_ok_transfer {s s' : GackState} {k : Nat}
    {o : Option (List Char)}
    (hbr : s'.branches = s.branches) (hst : s'.stack = s.stack)
    (h : getDiffRevInPatch s k = .ok o) :
    ∃ o', getDiffRevInPatch s' k = .ok o' := by
  unfold getDiffRevInPatch at h ⊢
  by_cases hk : 0 < k
  · simp only [if_pos hk] at h ⊢
    rw [hst]
    split at h
    · simp at h
    · next cids heq2 =>
      obtain ⟨l', hl'⟩ := commitsInReverse_ok_transfer hbr hst heq2
      rw [hl']
      exact ⟨_, rfl⟩
  · simp only [if_neg hk] at h ⊢
    rw [hst]
    split at h
    · simp at h
    · next cids heq2 =>
      obtain ⟨l', hl'⟩ := commitsInReverse_ok_transfer hbr hst heq2
      rw [hl']
      exact ⟨_, rfl⟩

theorem getDiffRevInPatch_some_shape {s : GackState} {k : Nat} {d : List Char}
    (h : getDiffRevInPatch s k = .ok (some d)) :
    ∃ c ds, d = 'D' :: c :: ds ∧ isDigitChar c = true := by
  unfold getDiffRevInPatch at h
  by_cases hk : 0 < k
  · simp only [if_pos hk] at h
    split at h
    · simp at h
    · injection h with h'
      obtain ⟨cid, -, hcid⟩ := List.exists_of_findSome?_eq_some h'
      exact searchDiffRev_shape hcid
  · simp only [if_neg hk] at h
    split at h
    · simp at h
    · injection h with h'
      obtain ⟨cid, -, hcid⟩ := List.exists_of_findSome?_eq_some h'
      exact searchDiffRev_shape hcid

/-! ### C1: the land operation does not re-link ancestry -/

/-- C1 counterexample: from stack `[root, A, B, C]` with one commit per
patch (`0 ← 1 ← 2 ← 3`), a successful land of index 1 produces stack
`[root, B, C]`, but `B`'s root commit (commit `2`, the earliest commit
of `B`'s range, whose parent is `A`'s tip `1`) keeps first parent `1`:
it is not rewritten to `root`'s tip `0`.  `arc_land` performs no
ancestry re-linking at all. -/
theorem c1_relink_counterexample :
    (arcLand landState 0).1 = .ok ∧
    (arcLand landState 0).2.1.stack = ["root", "B", "C"] ∧
    (arcLand landState 0).2.1.tip "root" = 0 ∧
    ((arcLand landState 0).2.1.graph 2).parents = [1] ∧
    ¬ ((arcLand landState 0).2.1.graph 2).parents.headD 0
        = (arcLand landState 0).2.1.tip "root" := by decide

/-- C1 (amended): after a successful land of the patch at index 1,
`arc_land` removes that patch from the stack and rewrites the stack
file; no ancestry re-linking occurs — the commit graph, branch tips,
branch set and active branch are unchanged, so each remaining patch's
root commit keeps its old first parent (the landed patch's tip). -/
theorem c1_land_pops_without_relink (s : GackState) (f : List Char)
    (hci : currentPatchIndex s = 1) (hf : s.stackFile = some f) :
    arcLand s 0 = (.ok,
      { s with
        stack := listRemoveAt s.stack 1,
        stackFile := some (stackString (listRemoveAt s.stack 1)) },
      [.shellE ["arc", "land"], .stackWriteE (listRemoveAt s.stack 1)]) := by
  unfold arcLand
  rw [hci]
  rw [if_neg (by norm_num), if_neg (by norm_num), if_pos rfl]
  unfold updateStackFile
  simp only [hf]
  rfl

/-- Witness for C1's amended theorem at the concrete land state. -/
theorem c1_land_pops_without_relink_witness :
    arcLand landState 0 = (.ok,
      { landState with
        stack := listRemoveAt landState.stack 1,
        stackFile := some (stackString (listRemoveAt landState.stack 1)) },
      [.shellE ["arc", "land"], .stackWriteE (listRemoveAt landState.stack 1)]) :=
  c1_land_pops_without_relink landState (stackString ["root", "A", "B", "C"])
    (by decide) rfl

/-! ### C2: walker bounds -/

/-- The sixteen commits the walker yields in the long-chain state. -/
def longChainList : List Nat :=
  [0, 1, 2, 3, 4, 5, 6, 7, 8, 9, 10, 11, 12, 13, 14, 15]

/-- C2 counterexample: the walker can yield 16 commits, one more than
`MAX_COMMITS = 15`: the cap check `commits_yielded > MAX_COMMITS` runs
only after a commit has been yielded, so a sixteenth commit slips out. -/
theorem c2_cap_counterexample :
    commitsInReverse longChainState "X" (some "B") = .ok longChainList ∧
    MAX_COMMITS < longChainList.length := by decide

/-- C2 (amended): for every state and every pair of patches, the walker
yields at most `MAX_COMMITS + 1 = 16` commits, and never yields the
resolved boundary commit or the resolved commit of the stack's root
patch. -/
theorem c2_walker_bounds (s : GackState) (cur : String) (par : Option String)
    (cids : List Nat) (pId rId : Nat)
    (h : commitsInReverse s cur par = .ok cids)
    (hp : resolveRev s par = .ok pId) (hr : resolveRoot s = .ok rId) :
    cids.length ≤ MAX_COMMITS + 1 ∧ pId ∉ cids ∧ rId ∉ cids := by
  obtain ⟨c, p, r, h1, h2, h3, hw⟩ := commitsInReverse_ok_elim h
  have hpp : p = pId := by
    rw [h2] at hp
    injection hp
  have hrr : r = rId := by
    rw [h3] at hr
    injection hr
  rw [hw, hpp, hrr]
  exact ⟨walkAux_length s.graph rId pId _ c,
    walkAux_not_mem_parent s.graph rId pId _ c,
    walkAux_not_mem_root s.graph rId pId _ c⟩

/-- Witness for C2's amended theorem in the long-chain state. -/
theorem c2_walker_bounds_witness :
    longChainList.length ≤ MAX_COMMITS + 1 ∧
      100 ∉ longChainList ∧ 100 ∉ longChainList :=
  c2_walker_bounds longChainState "X" (some "B") longChainList 100 100
    (by decide) (by decide) (by decide)

/-! ### C4: land is attempted before any stack edit -/

/-- C4: `arc_land` runs only when the active patch's index is exactly 1
(otherwise it prints and changes nothing); when the external `arc land`
fails (non-zero exit), the process exits with the stack and the stack
file untouched; and any stack-file write can only come after the
`arc land` shell call, which heads the effect trace. -/
theorem c4_land_failure_no_mutation (s : GackState) (code : Int) :
    (currentPatchIndex s ≠ 1 → arcLand s code = (.ok, s, [])) ∧
    (code ≠ 0 → arcLand s code = (.exited code, s, [.shellE ["arc", "land"]])
        ∨ arcLand s code = (.ok, s, [])) ∧
    ((arcLand s code).2.2 = [] ∨
      (arcLand s code).2.2.head? = some (.shellE ["arc", "land"])) := by
  refine ⟨?_, ?_, ?_⟩
  · intro hne
    unfold arcLand
    by_cases h0 : currentPatchIndex s < 0
    · rw [if_pos h0]
    · rw [if_neg h0, if_pos hne]
  · intro hc
    unfold arcLand
    by_cases h0 : currentPatchIndex s < 0
    · rw [if_pos h0]
      exact Or.inr rfl
    · rw [if_neg h0]
      by_cases h1 : currentPatchIndex s ≠ 1
      · rw [if_pos h1]
        exact Or.inr rfl
      · rw [if_neg h1, if_neg hc]
        exact Or.inl rfl
  · unfold arcLand
    by_cases h0 : currentPatchIndex s < 0
    · rw [if_pos h0]
      exact Or.inl rfl
    · rw [if_neg h0]
      by_cases h1 : currentPatchIndex s ≠ 1
      · rw [if_pos h1]
        exact Or.inl rfl
      · rw [if_neg h1]
        by_cases hc : code = 0
        · rw [if_pos hc]
          rcases hu : updateStackFile
              { s with stack := listRemoveAt s.stack (currentPatchIndex s).toNat } with
            ⟨o, s2, tr⟩
          exact Or.inr rfl
        · rw [if_neg hc]
          exact Or.inr rfl

/-- Witness for C4: a non-`1` index leaves everything alone, and a
failing land (exit code 3) from index 1 exits without touching the
stack. -/
theorem c4_land_failure_no_mutation_witness :
    arcLand popScenarioState 3 = (.ok, popScenarioState, []) ∧
    (arcLand landState 3 = (.exited 3, landState, [.shellE ["arc", "land"]])
      ∨ arcLand landState 3 = (.ok, landState, [])) :=
  ⟨(c4_land_failure_no_mutation popScenarioState 3).1 (by decide),
   (c4_land_failure_no_mutation landState 3).2.1 (by decide)⟩

/-! ### More findPatchIndex / removal lemmas -/

theorem findPatchIndex_of_not_mem {l : List String} {name : String}
    (h : name ∉ l) : findPatchIndex l name = -1 := by
  induction l with
  | nil => rfl
  | cons p rest ih =>
    have hp : p ≠ name := fun he => h (he ▸ List.mem_cons_self p rest)
    have hr : name ∉ rest := fun hm => h (List.mem_cons_of_mem _ hm)
    simp only [findPatchIndex, if_neg hp, ih hr]
    norm_num

theorem nthName_not_mem_removeAt {l : List String} {k : Nat}
    (hnd : l.Nodup) (hk : k < l.length) :
    nthName l k ∉ listRemoveAt l k := by
  induction l generalizing k with
  | nil => simp at hk
  | cons x t ih =>
    cases k with
    | zero =>
      simp only [nthName, listRemoveAt]
      exact (List.nodup_cons.mp hnd).1
    | succ j =>
      simp only [nthName, listRemoveAt, List.mem_cons]
      rintro (h | h)
      · have hmem : nthName t j ∈ t := nthName_lt_length (by simpa using hk)
        rw [h] at hmem
        exact (List.nodup_cons.mp hnd).1 hmem
      · exact ih (List.nodup_cons.mp hnd).2 (by simpa using hk) h

/-- Shared computation: a successful `untrack` (without `--delete`)
removes the entry at the target's index and rewrites the stack file. -/
theorem untrack_success_eq (s : GackState) (branch : String) (f : List Char)
    (htracked : 0 ≤ findPatchIndex s.stack branch)
    (hle : currentPatchIndex s ≤ findPatchIndex s.stack branch)
    (hf : s.stackFile = some f) :
    untrack s branch false = (.ok,
      { s with
        stack := listRemoveAt s.stack (findPatchIndex s.stack branch).toNat,
        stackFile :=
          some (stackString (listRemoveAt s.stack (findPatchIndex s.stack branch).toNat)) },
      [.stackWriteE (listRemoveAt s.stack (findPatchIndex s.stack branch).toNat)]) := by
  simp only [untrack]
  rw [if_neg (by omega), if_neg (by omega)]
  unfold updateStackFile
  simp only [hf]
  rfl

/-! ### C5: untrack guard and effect -/

/-- C5: for a tracked `name`, `untrack(name, delete)` prints and mutates
nothing whenever the active patch's index exceeds `name`'s index; when
the active index does not exceed it (and the stack file exists, and the
branch exists if `delete` is set), it removes exactly the entry at
`name`'s index, persists the result, and force-deletes the branch ref
exactly when `delete` is set. -/
theorem c5_untrack_guard (s : GackState) (branch : String) (delete : Bool)
    (f : List Char) (htracked : 0 ≤ findPatchIndex s.stack branch) :
    (findPatchIndex s.stack branch < currentPatchIndex s →
       untrack s branch delete = (.ok, s, [])) ∧
    (currentPatchIndex s ≤ findPatchIndex s.stack branch →
     s.stackFile = some f →
     (delete = true → branch ∈ s.branches) →
     (untrack s branch delete).1 = .ok ∧
     (untrack s branch delete).2.1.stack
        = listRemoveAt s.stack (findPatchIndex s.stack branch).toNat ∧
     (untrack s branch delete).2.1.stackFile
        = some (stackString (listRemoveAt s.stack (findPatchIndex s.stack branch).toNat)) ∧
     (delete = false → (untrack s branch delete).2.1.branches = s.branches) ∧
     (delete = true → (untrack s branch delete).2.1.branches = s.branches.erase branch)) := by
  constructor
  · intro hgt
    simp only [untrack]
    rw [if_neg (by omega), if_pos (by omega)]
  · intro hle hf hdel
    cases delete with
    | false =>
      simp only [untrack]
      rw [if_neg (by omega), if_neg (by omega)]
      unfold updateStackFile
      simp only [hf]
      exact ⟨rfl, rfl, rfl, fun _ => rfl, fun h => by simp at h⟩
    | true =>
      simp only [untrack]
      rw [if_neg (by omega), if_neg (by omega)]
      unfold updateStackFile
      simp only [hf]
      unfold deleteHead
      rw [if_pos (show branch ∈ s.branches from hdel rfl)]
      exact ⟨rfl, rfl, rfl, fun h => by simp at h, fun _ => rfl⟩

/-- Witness for C5: in `[main, A, B]` with `B` active, `untrack A` fails
and leaves the state alone, while `untrack B --delete` removes `B` and
erases the branch. -/
theorem c5_untrack_guard_witness :
    untrack threeStackState "A" false = (.ok, threeStackState, []) ∧
    (untrack threeStackState "B" true).1 = .ok ∧
    (untrack threeStackState "B" true).2.1.stack
      = listRemoveAt threeStackState.stack
          (findPatchIndex threeStackState.stack "B").toNat ∧
    (untrack threeStackState "B" true).2.1.branches
      = threeStackState.branches.erase "B" := by
  have h1 := (c5_untrack_guard threeStackState "A" false
    (stackString ["main", "A", "B"]) (by decide)).1 (by decide)
  have h2 := (c5_untrack_guard threeStackState "B" true
    (stackString ["main", "A", "B"]) (by decide)).2 (by decide) rfl
    (fun _ => by decide)
  exact ⟨h1, h2.1, h2.2.1, h2.2.2.2.2 rfl⟩

/-! ### C6: pop -/

/-- C6: `pop(all)` prints and does nothing when the active patch is
untracked or at the bottom; otherwise it checks out the patch at index
0 (`all`) or at the active index minus one (not `all`); it never
rebases and never changes the stack sequence. -/
theorem c6_pop_moves_down (s : GackState) (all : Bool) :
    (currentPatchIndex s < 0 ∨ currentPatchIndex s = 0 →
       pop s all = (.ok, s, [])) ∧
    (0 < currentPatchIndex s → all = true → nthName s.stack 0 ∈ s.branches →
       pop s all = (.ok, { s with active := nthName s.stack 0 },
         [.checkoutE (nthName s.stack 0)])) ∧
    (0 < currentPatchIndex s → all = false →
       nthName s.stack ((currentPatchIndex s).toNat - 1) ∈ s.branches →
       pop s all = (.ok,
         { s with active := nthName s.stack ((currentPatchIndex s).toNat - 1) },
         [.checkoutE (nthName s.stack ((currentPatchIndex s).toNat - 1))])) ∧
    (pop s all).2.1.stack = s.stack ∧
    (∀ b, Effect.rebaseE b ∉ (pop s all).2.2) := by
  refine ⟨?_, ?_, ?_, ?_, ?_⟩
  · rintro (h1 | h2)
    · simp only [pop]
      rw [if_pos h1]
    · simp only [pop]
      rw [if_neg (by omega), if_pos h2]
  · intro h ha hmem
    subst ha
    simp only [pop]
    rw [if_neg (by omega), if_neg (by omega), if_pos trivial]
    unfold checkOut
    rw [if_pos hmem]
  · intro h ha hmem
    subst ha
    simp only [pop]
    rw [if_neg (by omega), if_neg (by omega), if_neg (by simp)]
    unfold checkOut
    rw [if_pos hmem]
  · simp only [pop]
    split
    · rfl
    · split
      · rfl
      · split
        · unfold checkOut
          split
          · rfl
          · rfl
        · unfold checkOut
          split
          · rfl
          · rfl
  · intro b
    simp only [pop]
    split
    · simp
    · split
      · simp
      · split
        · unfold checkOut
          split
          · simp
          · simp
        · unfold checkOut
          split
          · simp
          · simp

/-- Witness for C6 at the spec's scenario: stack
`[main, featureA, featureB]`, active `featureB`; `pop` checks out
`featureA`, `pop --all` checks out `main`; in `[main]` at the bottom,
`pop` does nothing. -/
theorem c6_pop_moves_down_witness :
    pop popScenarioState false = (.ok,
      { popScenarioState with
        active := nthName popScenarioState.stack
          ((currentPatchIndex popScenarioState).toNat - 1) },
      [.checkoutE (nthName popScenarioState.stack
          ((currentPatchIndex popScenarioState).toNat - 1))]) ∧
    pop popScenarioState true = (.ok,
      { popScenarioState with active := nthName popScenarioState.stack 0 },
      [.checkoutE (nthName popScenarioState.stack 0)]) ∧
    pop initState false = (.ok, initState, []) :=
  ⟨(c6_pop_moves_down popScenarioState false).2.2.1 (by decide) rfl (by decide),
   (c6_pop_moves_down popScenarioState true).2.1 (by decide) rfl (by decide),
   (c6_pop_moves_down initState false).1 (Or.inr (by decide))⟩

/-! ### C10: untrack succeeds at or above the current position -/

/-- C10: `untrack(name)` succeeds — removes the entry at `name`'s index
and persists — whenever the active index is at most `name`'s index; in
particular untracking the active branch itself succeeds and leaves the
active branch untracked, and the root entry can be removed whenever the
active patch is the root or is untracked. -/
theorem c10_untrack_le_succeeds (s : GackState) (branch : String) (f : List Char) :
    (0 ≤ findPatchIndex s.stack branch →
     currentPatchIndex s ≤ findPatchIndex s.stack branch →
     s.stackFile = some f →
     untrack s branch false = (.ok,
       { s with
         stack := listRemoveAt s.stack (findPatchIndex s.stack branch).toNat,
         stackFile :=
           some (stackString (listRemoveAt s.stack (findPatchIndex s.stack branch).toNat)) },
       [.stackWriteE (listRemoveAt s.stack (findPatchIndex s.stack branch).toNat)])) ∧
    (branch = s.active → 0 ≤ findPatchIndex s.stack branch →
     s.stackFile = some f → s.stack.Nodup →
     findPatchIndex (untrack s branch false).2.1.stack s.active < 0) ∧
    (∀ r0 t, s.stack = r0 :: t → currentPatchIndex s ≤ 0 → s.stackFile = some f →
       untrack s r0 false = (.ok,
         { s with stack := t, stackFile := some (stackString t) },
         [.stackWriteE t])) := by
  refine ⟨?_, ?_, ?_⟩
  · intro htracked hle hf
    exact untrack_success_eq s branch f htracked hle hf
  · intro hbe htracked hf hnd
    subst hbe
    rw [untrack_success_eq s s.active f htracked (le_refl _) hf]
    obtain ⟨hnth, hlt, -⟩ := findPatchIndex_spec htracked
    have hnot : s.active ∉ listRemoveAt s.stack
        (findPatchIndex s.stack s.active).toNat := by
      have h := nthName_not_mem_removeAt hnd hlt
      rw [hnth] at h
      exact h
    rw [findPatchIndex_of_not_mem hnot]
    norm_num
  · intro r0 t hst hle hf
    have hfpi : findPatchIndex s.stack r0 = 0 := by
      rw [hst]
      simp [findPatchIndex]
    have h := untrack_success_eq s r0 f (by rw [hfpi]) (by rw [hfpi]; exact hle) hf
    rw [hfpi] at h
    have h2 : listRemoveAt s.stack (Int.toNat 0) = t := by
      rw [hst]
      rfl
    rw [h2] at h
    exact h

/-- Witness for C10: untracking the active branch `B` of `[main, A, B]`
succeeds and leaves it untracked, and from an untracked active branch
the root entry can be removed. -/
theorem c10_untrack_le_succeeds_witness :
    findPatchIndex (untrack threeStackState "B" false).2.1.stack
      threeStackState.active < 0 ∧
    untrack ghostEntryState "main" false = (.ok,
      { ghostEntryState with
        stack := ["A"], stackFile := some (stackString ["A"]) },
      [.stackWriteE ["A"]]) := by
  constructor
  · exact (c10_untrack_le_succeeds threeStackState "B"
      (stackString ["main", "A", "B"])).2.1 rfl (by decide) rfl (by decide)
  · exact (c10_untrack_le_succeeds ghostEntryState "main"
      (stackString ["main", "A"])).2.2 "main" ["A"] (by decide) (by decide) (by decide)

/-! ### C3: push_new_branch can break name uniqueness (code bug) -/

/-- C3 at the failing input: from a fresh `[main]` repository,
`push_existing_branch("A")` with no branch `A` persists the ghost name
`A` into the stack and then raises at checkout (`_find_branch` returns
`None`); re-running gack and calling `push_new_branch("A")` then
succeeds — the computed `next_patch_index` is never consulted — and
produces the stack `[main, A, A]` with duplicate names, violating the
uniqueness invariant. -/
theorem c3_push_new_branch_duplicate :
    (pushExistingBranch initState "A" false).1 = .raised ∧
    ghostEntryState.stack = ["main", "A"] ∧
    ghostEntryState.stackFile = some (stackString ["main", "A"]) ∧
    ghostEntryState.active = "main" ∧
    (pushNewBranch ghostEntryState "A").1 = .ok ∧
    (pushNewBranch ghostEntryState "A").2.1.stack = ["main", "A", "A"] ∧
    ¬ (pushNewBranch ghostEntryState "A").2.1.stack.Nodup := by decide

/-! ### C8: push_new_branch then pop returns to the original branch -/

/-- Shared computation: a successful `push_new_branch` creates the
branch at the current commit, inserts it after the current index,
persists, and checks it out. -/
theorem pushNewBranch_success_eq (s : GackState) (name : String) (f : List Char)
    (htr : 0 ≤ currentPatchIndex s) (hnb : name ∉ s.branches)
    (hf : s.stackFile = some f) :
    pushNewBranch s name = (.ok,
      { s with
        branches := name :: s.branches,
        tip := fun b => if b = name then s.tip s.active else s.tip b,
        stack := listInsertAt s.stack ((currentPatchIndex s).toNat + 1) name,
        stackFile := some (stackString
          (listInsertAt s.stack ((currentPatchIndex s).toNat + 1) name)),
        active := name },
      [.createBranchE name,
       .stackWriteE (listInsertAt s.stack ((currentPatchIndex s).toNat + 1) name),
       .checkoutE name]) := by
  simp only [pushNewBranch]
  rw [if_neg (by omega), if_neg hnb]
  unfold updateStackFile
  simp only [hf]
  unfold checkOut
  split
  · rfl
  · next hcon => exact absurd (List.mem_cons_self name s.branches) hcon

/-- C8: from a tracked active patch, `push_new_branch(name)` (for a
fresh branch name) immediately followed by `pop(all := false)` returns
the active patch to exactly the branch that was active before the
push. -/
theorem c8_push_then_pop_restores (s : GackState) (name : String) (f : List Char)
    (htr : 0 ≤ currentPatchIndex s) (hact : s.active ∈ s.branches)
    (hnb : name ∉ s.branches) (hns : name ∉ s.stack)
    (hf : s.stackFile = some f) :
    (pushNewBranch s name).1 = .ok ∧
    (pop (pushNewBranch s name).2.1 false).2.1.active = s.active := by
  have htr' : 0 ≤ findPatchIndex s.stack s.active := htr
  obtain ⟨hnth, hlt, -⟩ := findPatchIndex_spec htr'
  rw [pushNewBranch_success_eq s name f htr hnb hf]
  refine ⟨rfl, ?_⟩
  simp only [pop, currentPatchIndex]
  have hfpi : findPatchIndex
      (listInsertAt s.stack ((findPatchIndex s.stack s.active).toNat + 1) name) name
      = (((findPatchIndex s.stack s.active).toNat + 1 : Nat) : Int) :=
    findPatchIndex_insertAt hns (by omega)
  rw [hfpi]
  rw [if_neg (by omega), if_neg (by omega), if_neg (by simp)]
  have htn : ((((findPatchIndex s.stack s.active).toNat + 1 : Nat) : Int)).toNat - 1
      = (findPatchIndex s.stack s.active).toNat := by omega
  rw [htn]
  rw [nthName_insertAt_lt (by omega) (by omega), hnth]
  unfold checkOut
  split
  · rfl
  · next hcon => exact absurd (List.mem_cons_of_mem _ hact) hcon

/-- Witness for C8: pushing a fresh branch `feat` on `[main, A, B]`
(active `B`) and popping once returns to `B`. -/
theorem c8_push_then_pop_restores_witness :
    (pushNewBranch threeStackState "feat").1 = .ok ∧
    (pop (pushNewBranch threeStackState "feat").2.1 false).2.1.active
      = threeStackState.active :=
  c8_push_then_pop_restores threeStackState "feat"
    (stackString ["main", "A", "B"]) (by decide) (by decide) (by decide)
    (by decide) rfl

/-! ### C9: the dependency annotator is idempotent -/

/-- C9: `_add_depends_on_if_appropriate` is idempotent: whenever a call
amends the tip commit (appending the dependency annotation), a second
call on the resulting state performs no further amendment, because the
walker now visits the amended tip first and its message contains a
`Depends on D<digits>` marker; moreover the operation is a no-op when
the current patch's index is below 1 or when the predecessor patch has
no resolvable Differential Revision. -/
theorem c9_annotator_idempotent :
    (∀ s : GackState, wfState s → (addDependsOn s).2.2 ≠ [] →
       addDependsOn ((addDependsOn s).2.1) = (.ok, (addDependsOn s).2.1, [])) ∧
    (∀ s : GackState, currentPatchIndex s < 1 → addDependsOn s = (.ok, s, [])) ∧
    (∀ s : GackState, 1 ≤ currentPatchIndex s →
       getDiffRevInPatch s ((currentPatchIndex s).toNat - 1) = .ok none →
       addDependsOn s = (.ok, s, [])) := by
  refine ⟨?_, ?_, ?_⟩
  · intro s hwf htr
    by_cases h1 : findPatchIndex s.stack s.active < 1
    · have hs0 : addDependsOn s = (.ok, s, []) := by
        simp only [addDependsOn, currentPatchIndex]
        rw [if_pos h1]
      rw [hs0] at htr
      simp at htr
    · rcases hgd : getDiffRevInPatch s ((findPatchIndex s.stack s.active).toNat - 1)
        with u | o
      · have hs0 : addDependsOn s = (.raised, s, []) := by
          simp only [addDependsOn, currentPatchIndex]
          rw [if_neg h1, hgd]
        rw [hs0] at htr
        simp at htr
      · cases o with
        | none =>
          have hs0 : addDependsOn s = (.ok, s, []) := by
            simp only [addDependsOn, currentPatchIndex]
            rw [if_neg h1, hgd]
          rw [hs0] at htr
          simp at htr
        | some d =>
          obtain ⟨cc, ds, rfl, hdig⟩ := getDiffRevInPatch_some_shape hgd
          rcases hcr : commitsInReverse s
              (nthName s.stack (findPatchIndex s.stack s.active).toNat)
              (some (nthName s.stack ((findPatchIndex s.stack s.active).toNat - 1)))
            with u | cids
          · have hs0 : addDependsOn s = (.raised, s, []) := by
              simp only [addDependsOn, currentPatchIndex]
              rw [if_neg h1, hgd]
              simp only []
              rw [hcr]
            rw [hs0] at htr
            simp at htr
          · by_cases hany : cids.any
                (fun cid => containsDepMarker (s.graph cid).message) = true
            · have hs0 : addDependsOn s = (.ok, s, []) := by
                simp only [addDependsOn, currentPatchIndex]
                rw [if_neg h1, hgd]
                simp only []
                rw [hcr]
                simp only []
                rw [if_pos hany]
              rw [hs0] at htr
              simp at htr
            · rcases hrv : resolveRev s
                  (some (nthName s.stack (findPatchIndex s.stack s.active).toNat))
                with u | tipId
              · have hs0 : addDependsOn s = (.raised, s, []) := by
                  simp only [addDependsOn, currentPatchIndex]
                  rw [if_neg h1, hgd]
                  simp only []
                  rw [hcr]
                  simp only []
                  rw [if_neg hany, hrv]
                rw [hs0] at htr
                simp at htr
              · have hs : addDependsOn s = (.ok,
                    amendTip s ((s.graph tipId).message ++
                      '\n' :: '\n' :: ("Depends on ".data ++ 'D' :: cc :: ds)),
                    [.amendE ((s.graph tipId).message ++
                      '\n' :: '\n' :: ("Depends on ".data ++ 'D' :: cc :: ds))]) := by
                  simp only [addDependsOn, currentPatchIndex]
                  rw [if_neg h1, hgd]
                  simp only []
                  rw [hcr]
                  simp only []
                  rw [if_neg hany, hrv]
                rw [hs]
                show addDependsOn (amendTip s ((s.graph tipId).message ++
                    '\n' :: '\n' :: ("Depends on ".data ++ 'D' :: cc :: ds)))
                  = (.ok, amendTip s ((s.graph tipId).message ++
                      '\n' :: '\n' :: ("Depends on ".data ++ 'D' :: cc :: ds)), [])
                set s2 := amendTip s ((s.graph tipId).message ++
                  '\n' :: '\n' :: ("Depends on ".data ++ 'D' :: cc :: ds)) with hs2
                have hst2 : s2.stack = s.stack := by rw [hs2]; rfl
                have hbr2 : s2.branches = s.branches := by rw [hs2]; rfl
                have hac2 : s2.active = s.active := by rw [hs2]; rfl
                have h1' : 0 ≤ findPatchIndex s.stack s.active := by omega
                obtain ⟨hnth, hlt, hmin⟩ := findPatchIndex_spec h1'
                simp only [addDependsOn, currentPatchIndex]
                rw [hst2, hac2, if_neg h1]
                rcases hgd2 : getDiffRevInPatch s2
                    ((findPatchIndex s.stack s.active).toNat - 1) with u2 | o2
                · obtain ⟨o3, ho3⟩ := getDiffRevInPatch_ok_transfer hbr2 hst2 hgd
                  rw [hgd2] at ho3
                  exact absurd ho3 (by simp)
                · cases o2 with
                  | none => rfl
                  | some d2 =>
                    simp only []
                    rcases hcr2 : commitsInReverse s2
                        (nthName s.stack (findPatchIndex s.stack s.active).toNat)
                        (some (nthName s.stack
                          ((findPatchIndex s.stack s.active).toNat - 1)))
                      with u2 | cids2
                    · obtain ⟨l3, hl3⟩ := commitsInReverse_ok_transfer hbr2 hst2 hcr
                      rw [hcr2] at hl3
                      exact absurd hl3 (by simp)
                    · simp only []
                      obtain ⟨c2, p2, r2, hc2, hp2, hr2, hw2⟩ :=
                        commitsInReverse_ok_elim hcr2
                      have hnm : nthName s.stack
                          (findPatchIndex s.stack s.active).toNat = s.active := hnth
                      obtain ⟨hcmem, hcval⟩ := resolveRev_some_ok_mem hc2
                      rw [hnm] at hcval
                      have hc2nid : c2 = s.nextId := by
                        rw [hcval, hs2]
                        simp [amendTip]
                      obtain ⟨hpmem, hpval⟩ := resolveRev_some_ok_mem hp2
                      have hbne : nthName s.stack
                          ((findPatchIndex s.stack s.active).toNat - 1)
                          ≠ s.active := by
                        refine hmin _ ?_
                        omega
                      have hpne : p2 ≠ s.nextId := by
                        rw [hpval, hs2]
                        simp only [amendTip]
                        rw [if_neg hbne]
                        rw [hbr2] at hpmem
                        have hwfp := hwf _ hpmem
                        omega
                      obtain ⟨r0, t0, hstk0, hr0mem, hr0val⟩ := resolveRoot_ok_elim hr2
                      rw [hst2] at hstk0
                      have hr0nth : nthName s.stack 0 = r0 := by
                        rw [hstk0]
                        rfl
                      have hr0ne : r0 ≠ s.active := by
                        have h0lt := hmin 0 (by omega)
                        rw [hr0nth] at h0lt
                        exact h0lt
                      have hrne : r2 ≠ s.nextId := by
                        rw [hr0val, hs2]
                        simp only [amendTip]
                        rw [if_neg hr0ne]
                        rw [hbr2] at hr0mem
                        have hwfr := hwf _ hr0mem
                        omega
                      obtain ⟨tl, hwcons⟩ := walkAux_cons s2.graph r2 p2 MAX_COMMITS c2
                        (by rw [hc2nid]; exact fun h => hrne h.symm)
                        (by rw [hc2nid]; exact fun h => hpne h.symm)
                      have hmarker : containsDepMarker (s2.graph c2).message = true := by
                        rw [hc2nid, hs2]
                        simp only [amendTip]
                        rw [if_pos trivial]
                        have hre : (s.graph tipId).message ++
                            '\n' :: '\n' :: ("Depends on ".data ++ 'D' :: cc :: ds)
                            = ((s.graph tipId).message ++ ['\n', '\n'])
                              ++ (depLitChars ++ cc :: ds) := by
                          rw [List.append_assoc]
                          rfl
                        rw [hre]
                        exact containsDepMarker_append hdig
                      have hany2 : cids2.any
                          (fun cid => containsDepMarker (s2.graph cid).message)
                          = true := by
                        rw [hw2, hwcons]
                        simp [hmarker]
                      rw [if_pos hany2]
  · intro s h
    simp only [addDependsOn]
    rw [if_pos h]
  · intro s h1 h2
    simp only [addDependsOn]
    rw [if_neg (by omega), h2]

/-- Witness for C9: in the annotate state the first call amends the tip
of `B`; the second call is then a no-op, and the annotator is also a
no-op at the bottom of the stack and when the predecessor has no
revision. -/
theorem c9_annotator_idempotent_witness :
    addDependsOn ((addDependsOn annotateState).2.1)
      = (.ok, (addDependsOn annotateState).2.1, []) ∧
    addDependsOn initState = (.ok, initState, []) ∧
    addDependsOn landState = (.ok, landState, []) :=
  ⟨c9_annotator_idempotent.1 annotateState (by decide) (by decide),
   c9_annotator_idempotent.2.1 initState (by decide),
   c9_annotator_idempotent.2.2 landState (by decide) (by decide)⟩
